import Mathlib

/-!
Verification of the premailer style-resolution pipeline
(`premailer/premailer.py`): CSS rule extraction, margin/padding shorthand
expansion, per-element style merging with pseudo-class grouping, the
orchestration loop with first-touch bookkeeping and inline-style
restoration, and projection of resolved styles onto legacy HTML
attributes.

The Python code is embedded shallowly: strings are `List Char`, Python
dicts are association lists with insertion-order iteration (Python 2 dict
iteration order is implementation-defined; the entry *set* is what the
theorems rely on, and exact-string statements are only made where the
serialization is order-independent), exceptions are `Option`/error sums.
-/

namespace Premailer

abbrev Chars := List Char

/-- Python whitespace for `str.strip` / `str.split()`. -/
def isSpace (c : Char) : Bool :=
  c = ' ' || c = '\t' || c = '\n' || c = '\r' || c = '\x0b' || c = '\x0c'

/-- Python `s.strip()` is `trimTrail (trimLead s)`. -/
def trimLead (s : Chars) : Chars := s.dropWhile isSpace

/-- Remove trailing whitespace. -/
def trimTrail (s : Chars) : Chars := (s.reverse.dropWhile isSpace).reverse

/-- Python `str.strip()`. -/
def pyStrip (s : Chars) : Chars := trimTrail (trimLead s)

/-- Python `s.split(sep)` for a one-character separator (no maxsplit). -/
def splitOnChar (sep : Char) : Chars → List Chars
  | [] => [[]]
  | c :: cs =>
    if c = sep then [] :: splitOnChar sep cs
    else
      match splitOnChar sep cs with
      | [] => [[c]]
      | p :: ps => (c :: p) :: ps

/-- Python `s.split(sep, 1)`: `none` when the separator is absent. -/
def splitFirst (sep : Char) : Chars → Option (Chars × Chars)
  | [] => none
  | c :: cs =>
    if c = sep then some ([], cs)
    else (splitFirst sep cs).map (fun p => (c :: p.1, p.2))

/-- Python `sep.join(parts)`. -/
def joinSep (sep : Chars) : List Chars → Chars
  | [] => []
  | [x] => x
  | x :: y :: xs => x ++ sep ++ joinSep sep (y :: xs)

/-- Whether `hay` starts with `pre`. -/
def startsWith : Chars → Chars → Bool
  | _, [] => true
  | [], _ :: _ => false
  | c :: cs, d :: ds => c = d && startsWith cs ds

/-- Python `needle in hay` (substring test). -/
def isSub (needle : Chars) : Chars → Bool
  | [] => needle.isEmpty
  | c :: cs => startsWith (c :: cs) needle || isSub needle cs

/-- A Python dict modelled as an association list with unique keys kept in
insertion order. -/
def dlookup {β : Type} (k : Chars) : List (Chars × β) → Option β
  | [] => none
  | p :: d => if p.1 = k then some p.2 else dlookup k d

/-- Python `d[k] = v`: replace in place, or append when the key is new. -/
def dictInsert {β : Type} : List (Chars × β) → Chars → β → List (Chars × β)
  | [], k, v => [(k, v)]
  | p :: d, k, v => if p.1 = k then (k, v) :: d else p :: dictInsert d k v

/-- The first defined of two optional values. -/
def firstSome {β : Type} (a b : Option β) : Option β :=
  match a with
  | some v => some v
  | none => b

abbrev Dict := List (Chars × Chars)
abbrev GroupDict := List (Chars × Dict)

/-!
Section: `_merge_styles` (premailer.py lines 84-139)

```python
news = {}
for k, v in [x.strip().split(':', 1) for x in new.split(';') if x.strip()]:
    news[k.strip()] = v.strip()
```
-/

/-- One pass of the declaration-parsing comprehension: split on `;`,
drop blank chunks, split each on the first `:` (a chunk without a colon
raises `ValueError`, modelled as `none`), strip key and value. -/
def parseSegs : List Chars → Dict → Option Dict
  | [], d => some d
  | x :: xs, d =>
    if pyStrip x = [] then parseSegs xs d
    else
      match splitFirst ':' (pyStrip x) with
      | none => none
      | some kv => parseSegs xs (dictInsert d (pyStrip kv.1) (pyStrip kv.2))

/-- Parse a flat `"prop:value; prop:value"` block into a dict. -/
def parseBlockL (s : Chars) : Option Dict := parseSegs (splitOnChar ';' s) []

/-- The class `[:\-\w]` of `grouping_regex = re.compile('([:\-\w]*){([^}]+)}')`. -/
def isKeyChar (c : Char) : Bool := c = ':' || c = '-' || c = '_' || c.isAlphanum

/-- Try to match `([:\-\w]*){([^}]+)}` at the head of `s`, returning the
two capture groups and the remainder after the match. -/
def tryMatch (s : Chars) : Option (Chars × Chars × Chars) :=
  let key := s.takeWhile isKeyChar
  match s.dropWhile isKeyChar with
  | '{' :: rest1 =>
    let content := rest1.takeWhile (fun c => c ≠ '}')
    match content, rest1.dropWhile (fun c => c ≠ '}') with
    | [], _ => none
    | _ :: _, '}' :: rest2 => some (key, content, rest2)
    | _ :: _, _ => none
  | _ => none

/-- Leftmost non-overlapping scan for `grouping_regex.findall`; the fuel
is an upper bound on the number of scan steps (each step consumes at
least one character). -/
def findallAux : Nat → Chars → List (Chars × Chars)
  | 0, _ => []
  | _ + 1, [] => []
  | fuel + 1, c :: rest =>
    match tryMatch (c :: rest) with
    | some (k, v, rest') => (k, v) :: findallAux fuel rest'
    | none => findallAux fuel rest

/-- Model of `grouping_regex.findall(old)`. -/
def findallGroups (s : Chars) : List (Chars × Chars) := findallAux s.length s

/-- Build the `groups` dict from the regex matches (lines 107-112). -/
def groupsFrom : List (Chars × Chars) → GroupDict → Option GroupDict
  | [], acc => some acc
  | (cls, content) :: rest, acc =>
    match parseBlockL content with
    | none => none
    | some olds => groupsFrom rest (dictInsert acc cls olds)

/-- Lines 104-118: parse `old` into a `StyleGroup`; a grouped `old`
contributes only its regex matches, a flat `old` becomes the
unconditional (empty-key) group. -/
def groupsOf (old : Chars) : Option GroupDict :=
  match findallGroups old with
  | [] => (parseBlockL old).map (fun olds => [([], olds)])
  | gs => groupsFrom gs []

/-- Lines 121-124: `merged = news`, then copy every key of the base group
that `news` does not define. -/
def mergeInto (news : Dict) : Dict → Dict
  | [] => news
  | p :: rest =>
    mergeInto (if (dlookup p.1 news).isSome then news else news ++ [p]) rest

/-- The merged `StyleGroup` before serialization (lines 100-125). -/
def mergedGroupsL (old new cls : Chars) : Option GroupDict :=
  match parseBlockL new, groupsOf old with
  | some news, some groups =>
    let base := (dlookup cls groups).getD []
    some (dictInsert groups cls (mergeInto news base))
  | _, _ => none

/-- Serialization `'; '.join(['%s:%s' % (k, v) ...])`. -/
def serializeBlock (d : Dict) : Chars :=
  joinSep (';' :: ' ' :: []) (d.map (fun p => p.1 ++ ':' :: p.2))

/-- Rendering `'%s{%s}' % (class_, block)`. -/
def renderGroup (p : Chars × Dict) : Chars :=
  p.1 ++ '{' :: serializeBlock p.2 ++ ['}']

/-- Sort key of line 133: the count of `:` characters in the group key. -/
def colonsOf (p : Chars × Dict) : Nat := p.1.count ':'

/-- Stable insertion for the `sorted(..., cmp(count(':')))` call. -/
def stableInsertG (x : Chars × Dict) : GroupDict → GroupDict
  | [] => [x]
  | y :: ys => if colonsOf y ≤ colonsOf x then y :: stableInsertG x ys else x :: y :: ys

/-- Stable sort of the groups by ascending colon count. -/
def sortGroups (gs : GroupDict) : GroupDict :=
  gs.foldl (fun acc x => stableInsertG x acc) []

/-- Lines 127-139: one group serializes flat; several serialize as
space-joined `key{decls}` parts, the literal `{}` part being filtered. -/
def serializeStyles : GroupDict → Chars
  | [g] => serializeBlock g.2
  | gs =>
    joinSep [' ']
      (((sortGroups gs).map renderGroup).filter (fun x => x ≠ '{' :: '}' :: []))

/-- Model of `_merge_styles(old, new, class_)` on character lists. -/
def merge_stylesL (old new cls : Chars) : Option Chars :=
  (mergedGroupsL old new cls).map serializeStyles

/-- Model of `_merge_styles(old, new, class_)`. -/
def merge_styles (old new cls : String) : Option String :=
  (merge_stylesL old.toList new.toList cls.toList).map String.mk

/-!
Section: `_split_spacing_properties` (premailer.py lines 21-81)

The function-scoped variables `top`, `right`, `bottom`, `left` persist
across loop iterations: a margin/padding declaration whose value count is
not 1-4 reuses the previously assigned values, and raises
`UnboundLocalError` when there are none yet.
-/

/-- Either the `ValueError` from `p, v = property_.split(':')` or the `UnboundLocalError`
from reading the never-assigned `top`/`right`/`bottom`/`left`. -/
inductive SpacingError
  | declFormat
  | unboundLocal
deriving DecidableEq

/-- The last values assigned to `top`, `right`, `bottom`, `left`. -/
structure SpacingState where
  top : Chars
  right : Chars
  bottom : Chars
  left : Chars
deriving DecidableEq

/-- Outcome of the per-rule inner loop. -/
inductive PropsOut
  | ok (props : Chars) (st : Option SpacingState)
  | err (e : SpacingError)
deriving DecidableEq

/-- Outcome of `_split_spacing_properties`. -/
inductive SpacingOut
  | ok (rules : List (Chars × Chars))
  | err (e : SpacingError)
deriving DecidableEq

/-- Python `v.split()`: split on whitespace runs, dropping empty pieces. -/
def splitWSAux (acc : Chars) : Chars → List Chars
  | [] => if acc = [] then [] else [acc.reverse]
  | c :: cs =>
    if isSpace c then
      if acc = [] then splitWSAux [] cs else acc.reverse :: splitWSAux [] cs
    else splitWSAux (c :: acc) cs

/-- Python `v.split()`. -/
def splitWS (s : Chars) : List Chars := splitWSAux [] s

/-- The four longhand declarations emitted for one spacing shorthand
(lines 67-71), each with its trailing `;`. -/
def expandSpacing (p : Chars) (st : SpacingState) : Chars :=
  p ++ "-top:".toList ++ st.top ++ ';' ::
    (p ++ "-right:".toList ++ st.right ++ ';' ::
      (p ++ "-bottom:".toList ++ st.bottom ++ ';' ::
        (p ++ "-left:".toList ++ st.left ++ [';'])))

/-- The value-count dispatch of lines 52-65; out-of-range counts leave the
four variables at their previous values. -/
def spacingDispatch (values : List Chars) (st : Option SpacingState) :
    Option SpacingState :=
  if values.length = 1 then
    some ⟨values.getD 0 [], values.getD 0 [], values.getD 0 [], values.getD 0 []⟩
  else if values.length = 2 then
    some ⟨values.getD 0 [], values.getD 1 [], values.getD 0 [], values.getD 1 []⟩
  else if values.length = 3 then
    some ⟨values.getD 0 [], values.getD 1 [], values.getD 2 [], values.getD 1 []⟩
  else if values.length = 4 then
    some ⟨values.getD 0 [], values.getD 1 [], values.getD 2 [], values.getD 3 []⟩
  else st

/-- The loop over `style.split(';')` (lines 41-73), accumulating the
rebuilt `properties` string and threading the shared spacing variables. -/
def processProps : List Chars → Chars → Option SpacingState → PropsOut
  | [], acc, st => .ok acc st
  | seg :: rest, acc, st =>
    match splitOnChar ':' seg with
    | [p, v] =>
      if p = "margin".toList ∨ p = "padding".toList then
        match spacingDispatch (splitWS v) st with
        | none => .err .unboundLocal
        | some s => processProps rest (acc ++ expandSpacing p s) (some s)
      else processProps rest (acc ++ seg ++ [';']) st
    | _ => .err .declFormat

/-- The loop over the rules (lines 38-79), including the trailing-`;`
removal of lines 76-77. -/
def processRules : List (Chars × Chars) → Option SpacingState → SpacingOut
  | [], _ => .ok []
  | (sel, style) :: rest, st =>
    match processProps (splitOnChar ';' style) [] st with
    | .err e => .err e
    | .ok props st' =>
      let props' := match props.getLast? with
                    | some ';' => props.dropLast
                    | _ => props
      match processRules rest st' with
      | .err e => .err e
      | .ok orules => .ok ((sel, props') :: orules)

/-- Model of `_split_spacing_properties(rules)` on character lists. -/
def split_spacing_propertiesL (rules : List (Chars × Chars)) : SpacingOut :=
  processRules rules none

/-!
Section: `Premailer._parse_style_rules` (premailer.py lines 176-201)
-/

/-- The list `FILTER_PSEUDOSELECTORS = [':last-child', ':first-child', 'nth-child']`
(line 149, comment included: "These selectors don't apply to all
elements. Rather, they specify which elements to apply to."). -/
def FILTER_PSEUDOSELECTORS : List Chars :=
  [":last-child".toList, ":first-child".toList, "nth-child".toList]

/-- Skip to just past the next `*/`; `none` when there is none. -/
def dropThroughClose : Chars → Option Chars
  | [] => none
  | '*' :: '/' :: rest => some rest
  | _ :: rest => dropThroughClose rest

/-- Scan step of `_css_comments.sub('', css_body)` with `/\*.*?\*/`: an unterminated
`/*` matches nothing and is kept verbatim. -/
def stripCommentsAux : Nat → Chars → Chars
  | 0, s => s
  | _ + 1, [] => []
  | fuel + 1, '/' :: '*' :: rest =>
    (match dropThroughClose rest with
     | some rest' => stripCommentsAux fuel rest'
     | none => '/' :: '*' :: rest)
  | fuel + 1, c :: rest => c :: stripCommentsAux fuel rest

/-- Model of `_css_comments.sub('', css_body)`. -/
def stripComments (s : Chars) : Chars := stripCommentsAux s.length s

/-- Model of `_regex.findall` with `((.*?){(.*?)})` (DOTALL): repeatedly take the
text up to the next `{` and then up to the next `}`. -/
def cssBlocksAux : Nat → Chars → List (Chars × Chars)
  | 0, _ => []
  | fuel + 1, s =>
    match splitFirst '{' s with
    | none => []
    | some (sel, rest) =>
      match splitFirst '}' rest with
      | none => []
      | some (bulk, rest') => (sel, bulk) :: cssBlocksAux fuel rest'

/-- The `selector { declarations }` blocks of a stylesheet body. -/
def cssBlocks (s : Chars) : List (Chars × Chars) := cssBlocksAux s.length s

/-- Model of `re.sub(sep + '(\s+)', sep, s)`: delete whitespace runs that directly
follow the separator. -/
def squeezeAfter (sep : Char) : Bool → Chars → Chars
  | _, [] => []
  | afterSep, c :: rest =>
    if afterSep ∧ isSpace c then squeezeAfter sep true rest
    else c :: squeezeAfter sep (c = sep) rest

/-- Lines 183-186: normalize a declaration block's whitespace and strip
one trailing `;`. -/
def normalizeBulk (bulk : Chars) : Chars :=
  let b := squeezeAfter ';' false (pyStrip bulk)
  let b := squeezeAfter ':' false (pyStrip b)
  match b.getLast? with
  | some ';' => b.dropLast
  | _ => b

/-- Lines 187-189: split the selector list on commas, strip, drop blanks
and `@`-rules. -/
def selectorsOf (sels : Chars) : List Chars :=
  ((splitOnChar ',' sels).map pyStrip).filter
    (fun x => ¬ x.isEmpty ∧ x.head? ≠ some '@')

/-- Where one selector of a block ends up. -/
inductive SelectorClass
  | leftover
  | dropped
  | flattened
deriving DecidableEq

/-- Lines 190-199: pseudo-class selectors go to the leftovers when
exclusion is on (unless `':' + suffix` is literally in
`FILTER_PSEUDOSELECTORS`); bare `*` is dropped unless configured in. -/
def classify_selector (excludePseudo includeStar : Bool) (selector : Chars) :
    SelectorClass :=
  if ':' ∈ selector ∧ excludePseudo ∧
      (':' :: ((splitFirst ':' selector).getD ([], [])).2) ∉ FILTER_PSEUDOSELECTORS then
    .leftover
  else if selector = ['*'] ∧ ¬ includeStar then .dropped
  else .flattened

/-- Model of `Premailer._parse_style_rules(css_body)`: the `(rules, leftover)`
pair, in source order. -/
def parse_style_rulesL (excludePseudo includeStar : Bool) (css : Chars) :
    List (Chars × Chars) × List (Chars × Chars) :=
  (cssBlocks (pyStrip (stripComments css))).foldl
    (fun acc blk =>
      let bulk := normalizeBulk blk.2
      (selectorsOf blk.1).foldl
        (fun acc sel =>
          match classify_selector excludePseudo includeStar sel with
          | .leftover => (acc.1, acc.2 ++ [(sel, bulk)])
          | .dropped => acc
          | .flattened => (acc.1 ++ [(sel, bulk)], acc.2))
        acc)
    ([], [])

/-!
Section: The transform loop (premailer.py lines 256-295)

The DOM and CSS-selector services are external collaborators: elements
are natural-number ids in document order, and matching is an oracle
`String → Nat → Bool` supplied by the caller.
-/

/-- Lines 260-270: split a rule selector into the selector actually used
for matching and the pseudo-class merge key; a suffix found verbatim in
`FILTER_PSEUDOSELECTORS` stays attached and yields the empty key. -/
def split_pseudo (selector : String) : String × String :=
  match splitFirst ':' selector.toList with
  | none => (selector, "")
  | some (new_sel, after) =>
    if (':' :: after) ∈ FILTER_PSEUDOSELECTORS then (selector, "")
    else (String.mk new_sel, String.mk (':' :: after))

/-- Model of `item.attrib.get('style', '')`. -/
def getAttr (styles : List (Nat × String)) (i : Nat) : String :=
  match styles.find? (fun p => p.1 = i) with
  | some p => p.2
  | none => ""

/-- Model of `item.attrib['style'] = v`. -/
def setAttr (styles : List (Nat × String)) (i : Nat) (v : String) :
    List (Nat × String) :=
  if (styles.find? (fun p => p.1 = i)).isSome then
    styles.map (fun p => if p.1 = i then (i, v) else p)
  else styles ++ [(i, v)]

/-- The mutable state of the loop of lines 258-284: the per-element
`style` attributes, the `first_time` and `first_time_styles` lists, and
the `class_` variable that survives the loop. -/
structure TState where
  styles : List (Nat × String)
  firstTime : List Nat
  firstStyles : List (Nat × String)
  lastClass : String

/-- Lines 273-284: apply one rule to the matched elements, with the
first-touch argument swap of lines 275-279. -/
def step_elems (style cls : String) : List Nat → TState → Option TState
  | [], s => some s
  | item :: rest, s =>
    let old_style := getAttr s.styles item
    if s.firstTime.contains item then
      match merge_styles old_style style cls with
      | none => none
      | some ns =>
        step_elems style cls rest { s with styles := setAttr s.styles item ns }
    else
      match (if old_style ≠ "" then merge_styles style old_style cls
             else merge_styles old_style style cls) with
      | none => none
      | some ns =>
        step_elems style cls rest
          { s with styles := setAttr s.styles item ns,
                   firstTime := s.firstTime ++ [item],
                   firstStyles := s.firstStyles ++ [(item, old_style)] }

/-- Lines 260-284: the loop over the rules. -/
def step_rules (match_ : String → Nat → Bool) (elems : List Nat) :
    List (String × String) → TState → Option TState
  | [], s => some s
  | (sel, style) :: rest, s =>
    let sc := split_pseudo sel
    match step_elems style sc.2 (elems.filter (match_ sc.1))
        { s with lastClass := sc.2 } with
    | none => none
    | some s' => step_rules match_ elems rest s'

/-- Lines 288-295: re-apply the snapshotted inline styles, using the
`class_` value left over from the rule loop. -/
def restore_styles : List (Nat × String) → String → List (Nat × String) →
    Option (List (Nat × String))
  | [], _, styles => some styles
  | (item, inline) :: rest, cls, styles =>
    if inline = "" then restore_styles rest cls styles
    else
      match merge_styles (getAttr styles item) inline cls with
      | none => none
      | some ns => restore_styles rest cls (setAttr styles item ns)

/-- The style-resolution core of `Premailer.transform`: rule application
followed by the restoration pass, returning the final per-element
`style` attributes. -/
def transform_styles (match_ : String → Nat → Bool) (elems : List Nat)
    (rules : List (String × String)) (styles0 : List (Nat × String)) :
    Option (List (Nat × String)) :=
  match step_rules match_ elems rules ⟨styles0, [], [], ""⟩ with
  | none => none
  | some s => restore_styles s.firstStyles s.lastClass s.styles

/-- A selector-query oracle for a single-paragraph document: only the
selector `p` matches. -/
def match_p (sel : String) (_ : Nat) : Bool := sel = "p"

/-- First-touch computation of lines 274-279, as called with the rule's
declarations in `style` and the element's inline style in `old_style`. -/
def first_touch (style old_style cls : String) : Option String :=
  if old_style ≠ "" then merge_styles style old_style cls
  else merge_styles old_style style cls

/-- Modelled from the spec: the first-touch merge as the specification
sentence describes it ("new=rule, old=inline" when an inline style
exists, "inline-as-new against rule-as-old" otherwise), for comparison
with `first_touch`. -/
def first_touch_per_claim (style old_style cls : String) : Option String :=
  if old_style ≠ "" then merge_styles old_style style cls
  else merge_styles style old_style cls

/-!
Section: `Premailer._style_to_basic_html_attributes` (premailer.py lines 321-356)
-/

/-- Python `value.endswith('px')`. -/
def endsWithPx (v : Chars) : Bool :=
  match v.reverse with
  | 'x' :: 'p' :: _ => true
  | _ => false

/-- Strip a trailing `px` unit (lines 344-346). -/
def pxStripped (v : Chars) : Chars :=
  if endsWithPx v then v.dropLast.dropLast else v

/-- Lines 334-347: the projection loop; chunks without exactly one `:`
and unknown properties are skipped silently. -/
def attrPairs : List Chars → Dict → Dict
  | [], attrs => attrs
  | seg :: rest, attrs =>
    match splitOnChar ':' seg with
    | [k, v] =>
      if pyStrip k = "text-align".toList then
        attrPairs rest (dictInsert attrs "align".toList (pyStrip v))
      else if pyStrip k = "background-color".toList then
        attrPairs rest (dictInsert attrs "bgcolor".toList (pyStrip v))
      else if pyStrip k = "width".toList ∨ pyStrip k = "height".toList then
        attrPairs rest (dictInsert attrs (pyStrip k) (pxStripped (pyStrip v)))
      else attrPairs rest attrs
    | _ => attrPairs rest attrs

/-- Model of `Premailer._style_to_basic_html_attributes`: the attribute dict
computed from a style text. When the text contains a `}` (the condition
of lines 330-331 reduces to that, its second clause comparing
`count('{')` with itself), only `style_content.split('}')[0][1:]` is
parsed. -/
def style_to_attributesL (style_content : Chars) : Dict :=
  let sc := if style_content.count '}' ≠ 0 then
              ((splitOnChar '}' style_content).headI).drop 1
            else style_content
  attrPairs (splitOnChar ';' sc) []

/-- Model of `Premailer._style_to_basic_html_attributes` on strings. -/
def style_to_attributes (s : String) : Dict := style_to_attributesL s.toList

/-!
Section: Splitting and joining lemmas
-/

theorem splitOnChar_ne_nil (sep : Char) (s : Chars) : splitOnChar sep s ≠ [] := by
  induction s with
  | nil => simp [splitOnChar]
  | cons c cs ih =>
    unfold splitOnChar
    by_cases h : c = sep
    · simp [h]
    · simp only [if_neg h]
      cases hsp : splitOnChar sep cs with
      | nil => simp
      | cons p ps => simp

theorem splitOnChar_not_mem {sep : Char} {s : Chars} (h : sep ∉ s) :
    splitOnChar sep s = [s] := by
  induction s with
  | nil => rfl
  | cons c cs ih =>
    have hc : c ≠ sep := fun hh => h (hh ▸ List.mem_cons_self c cs)
    have hcs : sep ∉ cs := fun hh => h (List.mem_cons_of_mem c hh)
    unfold splitOnChar
    rw [if_neg hc, ih hcs]

theorem splitOnChar_cons (sep c : Char) (cs : Chars) :
    splitOnChar sep (c :: cs) =
      if c = sep then [] :: splitOnChar sep cs
      else
        match splitOnChar sep cs with
        | [] => [[c]]
        | p :: ps => (c :: p) :: ps := rfl

theorem splitOnChar_append {sep : Char} {a : Chars} (b : Chars) (h : sep ∉ a) :
    splitOnChar sep (a ++ sep :: b) = a :: splitOnChar sep b := by
  induction a with
  | nil => simp [splitOnChar]
  | cons c a' ih =>
    have hc : c ≠ sep := fun hh => h (hh ▸ List.mem_cons_self c a')
    have ha : sep ∉ a' := fun hh => h (List.mem_cons_of_mem c hh)
    rw [List.cons_append, splitOnChar_cons, if_neg hc, ih ha]

theorem joinSep_cons_cons (sep c : Char) (p : Chars) (ps : List Chars) :
    joinSep [sep] ((c :: p) :: ps) = c :: joinSep [sep] (p :: ps) := by
  cases ps <;> simp [joinSep]

theorem joinSep_splitOnChar (sep : Char) (s : Chars) :
    joinSep [sep] (splitOnChar sep s) = s := by
  induction s with
  | nil => rfl
  | cons c cs ih =>
    unfold splitOnChar
    by_cases h : c = sep
    · subst h
      rw [if_pos rfl]
      obtain ⟨p, ps, hps⟩ : ∃ p ps, splitOnChar c cs = p :: ps := by
        cases hsp : splitOnChar c cs with
        | nil => exact absurd hsp (splitOnChar_ne_nil c cs)
        | cons p ps => exact ⟨p, ps, rfl⟩
      rw [hps]
      rw [hps] at ih
      simpa [joinSep] using congrArg (fun t => c :: t) ih
    · rw [if_neg h]
      obtain ⟨p, ps, hps⟩ : ∃ p ps, splitOnChar sep cs = p :: ps := by
        cases hsp : splitOnChar sep cs with
        | nil => exact absurd hsp (splitOnChar_ne_nil sep cs)
        | cons p ps => exact ⟨p, ps, rfl⟩
      rw [hps]
      rw [hps] at ih
      rw [joinSep_cons_cons, ih]

theorem splitFirst_not_mem {sep : Char} {s : Chars} (h : sep ∉ s) :
    splitFirst sep s = none := by
  induction s with
  | nil => rfl
  | cons c cs ih =>
    have hc : c ≠ sep := fun hh => h (hh ▸ List.mem_cons_self c cs)
    have hcs : sep ∉ cs := fun hh => h (List.mem_cons_of_mem c hh)
    unfold splitFirst
    rw [if_neg hc, ih hcs]
    rfl

theorem splitFirst_append {sep : Char} {a : Chars} (b : Chars) (h : sep ∉ a) :
    splitFirst sep (a ++ sep :: b) = some (a, b) := by
  induction a with
  | nil => simp [splitFirst]
  | cons c a' ih =>
    have hc : c ≠ sep := fun hh => h (hh ▸ List.mem_cons_self c a')
    have ha : sep ∉ a' := fun hh => h (List.mem_cons_of_mem c hh)
    unfold splitFirst
    simp only [List.cons_append, if_neg hc, ih ha, Option.map_some']

/-!
Section: Dict lemmas
-/

theorem firstSome_none_right {β : Type} (a : Option β) : firstSome a none = a := by
  cases a <;> rfl

theorem firstSome_assoc {β : Type} (a b c : Option β) :
    firstSome (firstSome a b) c = firstSome a (firstSome b c) := by
  cases a <;> cases b <;> rfl

theorem dlookup_cons {β : Type} (k : Chars) (p : Chars × β) (d : List (Chars × β)) :
    dlookup k (p :: d) = if p.1 = k then some p.2 else dlookup k d := rfl

theorem dictInsert_cons {β : Type} (p : Chars × β) (d : List (Chars × β))
    (k : Chars) (v : β) :
    dictInsert (p :: d) k v =
      if p.1 = k then (k, v) :: d else p :: dictInsert d k v := rfl

theorem dlookup_append {β : Type} (k : Chars) (d1 d2 : List (Chars × β)) :
    dlookup k (d1 ++ d2) = firstSome (dlookup k d1) (dlookup k d2) := by
  induction d1 with
  | nil => rfl
  | cons p d ih =>
    rw [List.cons_append, dlookup_cons, dlookup_cons]
    by_cases h : p.1 = k
    · rw [if_pos h, if_pos h]
      rfl
    · rw [if_neg h, if_neg h, ih]

theorem dlookup_dictInsert_self {β : Type} (d : List (Chars × β)) (k : Chars) (v : β) :
    dlookup k (dictInsert d k v) = some v := by
  induction d with
  | nil => simp [dictInsert, dlookup]
  | cons p rest ih =>
    rw [dictInsert_cons]
    by_cases h : p.1 = k
    · rw [if_pos h, dlookup_cons]
      simp
    · rw [if_neg h, dlookup_cons, if_neg h, ih]

theorem dlookup_dictInsert_ne {β : Type} (d : List (Chars × β)) {k k' : Chars} (v : β)
    (h : k' ≠ k) : dlookup k' (dictInsert d k v) = dlookup k' d := by
  induction d with
  | nil =>
    show (if k = k' then some v else dlookup k' []) = dlookup k' []
    rw [if_neg (Ne.symm h)]
  | cons p rest ih =>
    rw [dictInsert_cons]
    by_cases hp : p.1 = k
    · rw [if_pos hp, dlookup_cons, dlookup_cons, if_neg (show ¬ p.1 = k' from hp ▸ Ne.symm h)]
      show (if k = k' then some v else dlookup k' rest) = dlookup k' rest
      rw [if_neg (Ne.symm h)]
    · rw [if_neg hp, dlookup_cons, dlookup_cons, ih]

theorem mem_dictInsert {β : Type} {d : List (Chars × β)} {k : Chars} {v : β}
    {a : Chars × β} (h : a ∈ dictInsert d k v) : a = (k, v) ∨ a ∈ d := by
  induction d with
  | nil => simpa [dictInsert] using h
  | cons p rest ih =>
    unfold dictInsert at h
    by_cases hp : p.1 = k
    · rw [if_pos hp] at h
      rcases List.mem_cons.mp h with h | h
      · exact Or.inl h
      · exact Or.inr (List.mem_cons_of_mem p h)
    · rw [if_neg hp] at h
      rcases List.mem_cons.mp h with h | h
      · exact Or.inr (h ▸ List.mem_cons_self p rest)
      · rcases ih h with h | h
        · exact Or.inl h
        · exact Or.inr (List.mem_cons_of_mem p h)

theorem dlookup_mergeInto (base : Dict) (news : Dict) (k : Chars) :
    dlookup k (mergeInto news base) = firstSome (dlookup k news) (dlookup k base) := by
  induction base generalizing news with
  | nil => simpa using (firstSome_none_right (dlookup k news)).symm
  | cons p rest ih =>
    have hstep : mergeInto news (p :: rest) =
        mergeInto (if (dlookup p.1 news).isSome then news else news ++ [p]) rest := rfl
    rw [hstep, dlookup_cons]
    by_cases hmem : (dlookup p.1 news).isSome
    · rw [if_pos hmem, ih]
      by_cases hp : p.1 = k
      · rw [if_pos hp]
        obtain ⟨w, hw⟩ := Option.isSome_iff_exists.mp hmem
        rw [hp] at hw
        rw [hw]
        rfl
      · rw [if_neg hp]
    · rw [if_neg hmem, ih, dlookup_append, firstSome_assoc]
      have hnone : dlookup p.1 news = none := Option.not_isSome_iff_eq_none.mp hmem
      by_cases hp : p.1 = k
      · rw [if_pos hp, ← hp, hnone]
        show firstSome none (firstSome (dlookup p.1 [p]) (dlookup p.1 rest)) =
          firstSome none (some p.2)
        rw [dlookup_cons, if_pos rfl]
        rfl
      · rw [if_neg hp]
        have h1 : dlookup k [p] = none := by
          rw [dlookup_cons, if_neg hp]
          rfl
        rw [h1]
        rfl

/-!
Section: The flat-merge specification lemma, shared by several claims.
-/

theorem merge_flat {old new : Chars} {olds news : Dict}
    (h1 : findallGroups old = [])
    (h2 : parseBlockL old = some olds)
    (h3 : parseBlockL new = some news) :
    merge_stylesL old new [] = some (serializeBlock (mergeInto news olds)) ∧
    ∀ k, dlookup k (mergeInto news olds) =
      firstSome (dlookup k news) (dlookup k olds) := by
  have hg : groupsOf old = some [([], olds)] := by
    unfold groupsOf
    rw [h1, h2]
    rfl
  refine ⟨?_, fun k => dlookup_mergeInto olds news k⟩
  unfold merge_stylesL mergedGroupsL
  rw [h3, hg]
  simp [dlookup, dictInsert, serializeStyles]

/-!
Section: Claim C1
-/

/-- C1: for flat declaration blocks `old` and `new` and pseudo key `""`,
`_merge_styles` returns the serialization of a dict in which every
property of `new` has `new`'s value and every property only in `old`
keeps `old`'s value; in particular the two concrete examples of the
claim, phrased as substring facts so that they do not depend on the
modelled dict iteration order. -/
theorem C1_merge_semantics (old new : String) (olds news : Dict)
    (h1 : findallGroups old.toList = [])
    (h2 : parseBlockL old.toList = some olds)
    (h3 : parseBlockL new.toList = some news) :
    (∃ m : Dict, merge_styles old new "" = some (String.mk (serializeBlock m)) ∧
      ∀ k, dlookup k m = firstSome (dlookup k news) (dlookup k olds)) ∧
    (∃ r1 : String,
      merge_styles "color:red" "color:blue; font-weight:bold" "" = some r1 ∧
      isSub "color:blue".toList r1.toList = true ∧
      isSub "font-weight:bold".toList r1.toList = true ∧
      isSub "color:red".toList r1.toList = false) ∧
    (∃ r2 : String,
      merge_styles "color:red; margin:1px" "color:blue" "" = some r2 ∧
      isSub "margin:1px".toList r2.toList = true) := by
  refine ⟨?_,
    ⟨"color:blue; font-weight:bold", by decide, by decide, by decide, by decide⟩,
    ⟨"color:blue; margin:1px", by decide, by decide⟩⟩
  obtain ⟨he, hl⟩ := merge_flat h1 h2 h3
  refine ⟨mergeInto news olds, ?_, hl⟩
  show (merge_stylesL old.toList new.toList []).map String.mk =
    some (String.mk (serializeBlock (mergeInto news olds)))
  rw [he]
  rfl

/-- Witness for C1 at the claim's own example. -/
theorem C1_witness :
    ∃ r1 : String,
      merge_styles "color:red" "color:blue; font-weight:bold" "" = some r1 ∧
      isSub "color:blue".toList r1.toList = true ∧
      isSub "font-weight:bold".toList r1.toList = true ∧
      isSub "color:red".toList r1.toList = false :=
  (C1_merge_semantics "color:red" "color:blue; font-weight:bold"
    [("color".toList, "red".toList)]
    [("color".toList, "blue".toList), ("font-weight".toList, "bold".toList)]
    (by decide) (by decide) (by decide)).2.1

/-!
Section: Claim C3
-/

/-- C3 counterexample: on the first touch of an element carrying inline
`color:red` by a rule `color:blue`, the code passes the rule as `old`
and the inline style as `new`, so the result is `color:red` — the
inline style, not the rule, takes precedence, contrary to the claim
(whose reading is `first_touch_per_claim`, yielding `color:blue`). -/
theorem C3_counterexample :
    first_touch "color:blue" "color:red" "" = some "color:red" ∧
    first_touch_per_claim "color:blue" "color:red" "" = some "color:blue" ∧
    isSub "color:blue".toList "color:red".toList = false :=
  ⟨by decide, by decide, by decide⟩

/-- C3 as amended: the first time an element is touched, when a
non-empty inline style exists the orchestrator calls
`_merge_styles(old=rule, new=inline)`, so the INLINE declarations take
precedence and rule-only declarations are preserved; when no inline
style exists it calls `_merge_styles(old='', new=rule)`, making the
rule the whole style. -/
theorem C3_amended (style old_style : String) (rd ind : Dict)
    (h1 : findallGroups style.toList = [])
    (h2 : parseBlockL style.toList = some rd)
    (h3 : parseBlockL old_style.toList = some ind)
    (h0 : old_style ≠ "") :
    (∃ m : Dict, first_touch style old_style "" = some (String.mk (serializeBlock m)) ∧
      ∀ k, dlookup k m = firstSome (dlookup k ind) (dlookup k rd)) ∧
    (∃ m2 : Dict, first_touch style "" "" = some (String.mk (serializeBlock m2)) ∧
      ∀ k, dlookup k m2 = dlookup k rd) := by
  constructor
  · obtain ⟨he, hl⟩ := merge_flat h1 h2 h3
    refine ⟨mergeInto ind rd, ?_, hl⟩
    unfold first_touch
    rw [if_pos h0]
    show (merge_stylesL style.toList old_style.toList []).map String.mk =
      some (String.mk (serializeBlock (mergeInto ind rd)))
    rw [he]
    rfl
  · have h1e : findallGroups ("" : String).toList = [] := by decide
    have h2e : parseBlockL ("" : String).toList = some [] := by decide
    obtain ⟨he, hl⟩ := merge_flat h1e h2e h2
    refine ⟨mergeInto rd [], ?_, ?_⟩
    · unfold first_touch
      rw [if_neg (by simp)]
      show (merge_stylesL ("" : String).toList style.toList []).map String.mk =
        some (String.mk (serializeBlock (mergeInto rd [])))
      rw [he]
      rfl
    · intro k
      rw [hl k]
      exact firstSome_none_right _

/-- Witness for C3's amended theorem at the counterexample's input. -/
theorem C3_amended_witness :
    ∃ m : Dict, first_touch "color:blue" "color:red" "" =
        some (String.mk (serializeBlock m)) ∧
      ∀ k, dlookup k m = firstSome (dlookup k [("color".toList, "red".toList)])
        (dlookup k [("color".toList, "blue".toList)]) :=
  (C3_amended "color:blue" "color:red"
    [("color".toList, "blue".toList)] [("color".toList, "red".toList)]
    (by decide) (by decide) (by decide) (by decide)).1

/-!
Section: Sortedness of the serialized groups (for claim C5)
-/

theorem stableInsertG_perm (x : Chars × Dict) (l : GroupDict) :
    List.Perm (stableInsertG x l) (x :: l) := by
  induction l with
  | nil => exact List.Perm.refl _
  | cons y ys ih =>
    show List.Perm (if colonsOf y ≤ colonsOf x then y :: stableInsertG x ys
      else x :: y :: ys) _
    by_cases h : colonsOf y ≤ colonsOf x
    · rw [if_pos h]
      exact (ih.cons y).trans (List.Perm.swap x y ys)
    · rw [if_neg h]

theorem sortGroups_foldl_perm (l : List (Chars × Dict)) (acc : GroupDict) :
    List.Perm (l.foldl (fun acc x => stableInsertG x acc) acc) (acc ++ l) := by
  induction l generalizing acc with
  | nil => simp
  | cons x rest ih =>
    have h1 := ih (stableInsertG x acc)
    have h2 : List.Perm (stableInsertG x acc ++ rest) ((x :: acc) ++ rest) :=
      (stableInsertG_perm x acc).append_right rest
    have h3 : List.Perm ((x :: acc) ++ rest) (acc ++ x :: rest) :=
      List.perm_middle.symm
    exact (h1.trans h2).trans h3

theorem sortGroups_perm (gs : GroupDict) : List.Perm (sortGroups gs) gs := by
  simpa using sortGroups_foldl_perm gs []

theorem stableInsertG_chain (x : Chars × Dict) (l : GroupDict)
    (h : List.Chain' (fun a b => colonsOf a ≤ colonsOf b) l) :
    List.Chain' (fun a b => colonsOf a ≤ colonsOf b) (stableInsertG x l) := by
  induction l with
  | nil => simp [stableInsertG]
  | cons y ys ih =>
    show List.Chain' _ (if colonsOf y ≤ colonsOf x then y :: stableInsertG x ys
      else x :: y :: ys)
    by_cases hc : colonsOf y ≤ colonsOf x
    · rw [if_pos hc]
      cases ys with
      | nil =>
        simp [stableInsertG, List.chain'_cons, hc]
      | cons z zs =>
        obtain ⟨hyz, hzz⟩ := List.chain'_cons.mp h
        have hins := ih hzz
        by_cases hz : colonsOf z ≤ colonsOf x
        · have hzrw : stableInsertG x (z :: zs) = z :: stableInsertG x zs := by
            simp [stableInsertG, hz]
          rw [hzrw]
          rw [hzrw] at hins
          exact List.chain'_cons.mpr ⟨hyz, hins⟩
        · have hzrw : stableInsertG x (z :: zs) = x :: z :: zs := by
            simp [stableInsertG, hz]
          rw [hzrw]
          exact List.chain'_cons.mpr ⟨hc,
            List.chain'_cons.mpr ⟨Nat.le_of_not_le hz, hzz⟩⟩
    · rw [if_neg hc]
      exact List.chain'_cons.mpr ⟨Nat.le_of_not_le hc, h⟩

theorem sortGroups_chain (gs : GroupDict) :
    List.Chain' (fun a b => colonsOf a ≤ colonsOf b) (sortGroups gs) := by
  have main : ∀ (l : List (Chars × Dict)) (acc : GroupDict),
      List.Chain' (fun a b => colonsOf a ≤ colonsOf b) acc →
      List.Chain' (fun a b => colonsOf a ≤ colonsOf b)
        (l.foldl (fun acc x => stableInsertG x acc) acc) := by
    intro l
    induction l with
    | nil => intro acc h; exact h
    | cons x rest ih =>
      intro acc h
      exact ih (stableInsertG x acc) (stableInsertG_chain x acc h)
  exact main gs [] (by simp)

/-!
Section: Claim C5
-/

/-- C5 counterexample: a group that serializes as `key{}` with a
non-empty key is NOT omitted — the code filters only the literal `{}`
part.  Merging into the grouped old style `b{color:red} :hover{ }`
(whose `:hover` group parses to no declarations) keeps an empty
`:hover{}` group in the output. -/
theorem C5_counterexample :
    ∃ out : String,
      merge_styles "b\x7bcolor:red\x7d :hover\x7b \x7d" "font-size:1px" "" =
        some out ∧
      isSub ":hover\x7b\x7d".toList out.toList = true :=
  ⟨"b\x7bcolor:red\x7d \x7bfont-size:1px\x7d :hover\x7b\x7d", by decide, by decide⟩

/-- C5 as amended: with more than one group, serialization emits the
groups as `pseudoKey{decls}` parts, space-joined, stably sorted by
ascending count of `:` characters in the group key, and omits exactly
the parts equal to the literal `{}` (empty key and empty block);
`key{}` parts with a non-empty key are kept. -/
theorem C5_amended (gs : GroupDict) (h : 1 < gs.length) :
    serializeStyles gs =
      joinSep [' ']
        (((sortGroups gs).map renderGroup).filter
          (fun x => x ≠ '{' :: '}' :: [])) ∧
    List.Perm (sortGroups gs) gs ∧
    List.Chain' (fun a b => colonsOf a ≤ colonsOf b) (sortGroups gs) := by
  refine ⟨?_, sortGroups_perm gs, sortGroups_chain gs⟩
  match gs, h with
  | a :: b :: t, _ => rfl

/-- Witness for C5's amended theorem on a two-group style. -/
theorem C5_witness :
    serializeStyles [([], [("a".toList, "b".toList)]), (":hover".toList, [])] =
      joinSep [' ']
        (((sortGroups [([], [("a".toList, "b".toList)]), (":hover".toList, [])]).map
            renderGroup).filter (fun x => x ≠ '{' :: '}' :: [])) ∧
    List.Perm
      (sortGroups [([], [("a".toList, "b".toList)]), (":hover".toList, [])])
      [([], [("a".toList, "b".toList)]), (":hover".toList, [])] ∧
    List.Chain' (fun a b => colonsOf a ≤ colonsOf b)
      (sortGroups [([], [("a".toList, "b".toList)]), (":hover".toList, [])]) :=
  C5_amended [([], [("a".toList, "b".toList)]), (":hover".toList, [])] (by decide)

/-!
Section: Claim C6
-/

/-- C6 counterexample: with rules `p{color:blue}`, `p{color:purple}`,
`p:hover{color:green}` and an element with inline `color:red`, the
restoration pass merges the inline style under the pseudo key
`:hover` left over from the last rule, so the unconditional group of
the final style keeps the CSS-derived `color:purple` — the inline
`color:red` does NOT win there, contrary to the claim. -/
theorem C6_counterexample :
    transform_styles match_p [0]
      [("p", "color:blue"), ("p", "color:purple"), ("p:hover", "color:green")]
      [(0, "color:red")] =
      some [(0, "\x7bcolor:purple\x7d :hover\x7bcolor:red\x7d")] ∧
    groupsOf "\x7bcolor:purple\x7d :hover\x7bcolor:red\x7d".toList =
      some [([], [("color".toList, "purple".toList)]),
            (":hover".toList, [("color".toList, "red".toList)])] ∧
    ("purple".toList : Chars) ≠ "red".toList :=
  ⟨by decide, by decide, by decide⟩

/-- C6 as amended: the restoration pass re-merges the original inline
style (as `new`) into the accumulated style under the LAST pseudo key
seen in the rule loop, and the inline declarations win within that
group; when every rule is unconditional — e.g. the single rule
`p{color:blue}` against inline `color:red` — that key is `""` and the
final style is the inline `color:red`. -/
theorem C6_amended (old new cls : Chars) (news : Dict) (gs : GroupDict)
    (h3 : parseBlockL new = some news)
    (h4 : mergedGroupsL old new cls = some gs) :
    (transform_styles match_p [0] [("p", "color:blue")] [(0, "color:red")] =
      some [(0, "color:red")]) ∧
    (∃ d : Dict, dlookup cls gs = some d ∧
      ∀ k v, dlookup k news = some v → dlookup k d = some v) := by
  refine ⟨by decide, ?_⟩
  unfold mergedGroupsL at h4
  rw [h3] at h4
  cases hgo : groupsOf old with
  | none => rw [hgo] at h4; exact absurd h4 (by simp)
  | some groups =>
    rw [hgo] at h4
    have hgs : gs = dictInsert groups cls
        (mergeInto news ((dlookup cls groups).getD [])) := by
      injection h4.symm
    refine ⟨mergeInto news ((dlookup cls groups).getD []), ?_, ?_⟩
    · rw [hgs]
      exact dlookup_dictInsert_self _ _ _
    · intro k v hkv
      rw [dlookup_mergeInto, hkv]
      rfl

/-- Witness for C6's amended theorem: restoring inline `color:red` over
the accumulated `color:purple` under the leftover `:hover` key. -/
theorem C6_witness :
    (transform_styles match_p [0] [("p", "color:blue")] [(0, "color:red")] =
      some [(0, "color:red")]) ∧
    (∃ d : Dict,
      dlookup ":hover".toList
        [([], [("color".toList, "purple".toList)]),
         (":hover".toList, [("color".toList, "red".toList)])] = some d ∧
      ∀ k v, dlookup k [("color".toList, "red".toList)] = some v →
        dlookup k d = some v) :=
  C6_amended "\x7bcolor:purple\x7d :hover\x7bcolor:green\x7d".toList
    "color:red".toList ":hover".toList [("color".toList, "red".toList)]
    [([], [("color".toList, "purple".toList)]),
     (":hover".toList, [("color".toList, "red".toList)])]
    (by decide) (by decide)

/-!
Section: Claim C10
-/

theorem groupsFrom_sound (lst : List (Chars × Chars)) (acc gs : GroupDict)
    (h : groupsFrom lst acc = some gs) :
    ∀ cls d, dlookup cls gs = some d →
      (∃ content, (cls, content) ∈ lst ∧ parseBlockL content = some d) ∨
      dlookup cls acc = some d := by
  induction lst generalizing acc with
  | nil =>
    intro cls d hd
    right
    have : acc = gs := by injection h
    rw [this]
    exact hd
  | cons p rest ih =>
    obtain ⟨c0, ct⟩ := p
    intro cls d hd
    unfold groupsFrom at h
    cases hp : parseBlockL ct with
    | none => rw [hp] at h; exact absurd h (by simp)
    | some olds =>
      rw [hp] at h
      rcases ih _ h cls d hd with ⟨content, hmem, hparse⟩ | hacc
      · exact Or.inl ⟨content, List.mem_cons_of_mem _ hmem, hparse⟩
      · by_cases hcls : cls = c0
        · subst hcls
          rw [dlookup_dictInsert_self] at hacc
          have : olds = d := by injection hacc
          exact Or.inl ⟨ct, List.mem_cons_self _ _, this ▸ hp⟩
        · rw [dlookup_dictInsert_ne _ _ hcls] at hacc
          exact Or.inr hacc

/-- C10: when `old` contains at least one brace-delimited group, only
the regex-matched groups of `old` contribute: every group of the parsed
`StyleGroup` comes from a `grouping_regex` match, and (concretely) the
declaration `color:red` of `old = "color:red; a{font-size:2px}"` that
lies outside every brace group is silently discarded by the merge. -/
theorem C10_grouped_old_discards_loose_declarations (old : Chars) (gs : GroupDict)
    (h1 : findallGroups old ≠ [])
    (h2 : groupsOf old = some gs) :
    (∀ cls d, dlookup cls gs = some d →
      ∃ content, (cls, content) ∈ findallGroups old ∧
        parseBlockL content = some d) ∧
    (∃ out : String,
      merge_styles "color:red; a\x7bfont-size:2px\x7d" "font-weight:bold" "" =
        some out ∧
      isSub "color:red".toList out.toList = false ∧
      isSub "font-size:2px".toList out.toList = true ∧
      isSub "font-weight:bold".toList out.toList = true) := by
  refine ⟨?_, ⟨"a\x7bfont-size:2px\x7d \x7bfont-weight:bold\x7d",
    by decide, by decide, by decide, by decide⟩⟩
  intro cls d hd
  have h2' : groupsFrom (findallGroups old) [] = some gs := by
    unfold groupsOf at h2
    cases hf : findallGroups old with
    | nil => exact absurd hf h1
    | cons a l =>
      rw [hf] at h2
      exact h2
  rcases groupsFrom_sound _ _ _ h2' cls d hd with ⟨content, hmem, hparse⟩ | hacc
  · exact ⟨content, hmem, hparse⟩
  · exact absurd hacc (by simp [dlookup])

/-- Witness for C10 on a small grouped style. -/
theorem C10_witness :
    ∃ content, (("a".toList : Chars), content) ∈ findallGroups "a\x7bx:y\x7d".toList ∧
      parseBlockL content = some [("x".toList, "y".toList)] :=
  (C10_grouped_old_discards_loose_declarations "a\x7bx:y\x7d".toList
    [(("a".toList : Chars), [("x".toList, "y".toList)])]
    (by decide) (by decide)).1 "a".toList [("x".toList, "y".toList)] (by decide)

/-!
Section: Shorthand expansion lemmas (claims C2, C7, C8)
-/

/-- The four longhand declarations produced for one `margin`/`padding`
shorthand, without the trailing `;` (which line 76-77 strips when the
shorthand ends the block). -/
def longhand (p t r b l : Chars) : Chars :=
  p ++ "-top:".toList ++ t ++ ';' ::
    (p ++ "-right:".toList ++ r ++ ';' ::
      (p ++ "-bottom:".toList ++ b ++ ';' ::
        (p ++ "-left:".toList ++ l)))

theorem expandSpacing_eq (p : Chars) (st : SpacingState) :
    expandSpacing p st = longhand p st.top st.right st.bottom st.left ++ [';'] := by
  simp [expandSpacing, longhand]

theorem processProps_cons (seg : Chars) (rest : List Chars) (acc : Chars)
    (st : Option SpacingState) :
    processProps (seg :: rest) acc st =
      match splitOnChar ':' seg with
      | [p, v] =>
        if p = "margin".toList ∨ p = "padding".toList then
          match spacingDispatch (splitWS v) st with
          | none => .err .unboundLocal
          | some s => processProps rest (acc ++ expandSpacing p s) (some s)
        else processProps rest (acc ++ seg ++ [';']) st
      | _ => .err .declFormat := rfl

theorem processRules_cons (sel style : Chars) (rest : List (Chars × Chars))
    (st : Option SpacingState) :
    processRules ((sel, style) :: rest) st =
      match processProps (splitOnChar ';' style) [] st with
      | .err e => .err e
      | .ok props st' =>
        let props' := match props.getLast? with
                      | some ';' => props.dropLast
                      | _ => props
        match processRules rest st' with
        | .err e => .err e
        | .ok orules => .ok ((sel, props') :: orules) := rfl

/-- One rule whose block is a single valid spacing shorthand expands to
the four longhands given by `spacingDispatch`. -/
theorem spacing_single_rule (sel p v : Chars) (st : SpacingState)
    (hp : p = "margin".toList ∨ p = "padding".toList)
    (hc : ':' ∉ v) (hs : ';' ∉ v)
    (hd : spacingDispatch (splitWS v) none = some st) :
    split_spacing_propertiesL [(sel, p ++ ':' :: v)] =
      .ok [(sel, longhand p st.top st.right st.bottom st.left)] := by
  have hpc : ':' ∉ p := by rcases hp with h | h <;> subst h <;> decide
  have hps : ';' ∉ p := by rcases hp with h | h <;> subst h <;> decide
  have hsplit1 : splitOnChar ';' (p ++ ':' :: v) = [p ++ ':' :: v] := by
    apply splitOnChar_not_mem
    intro hmem
    rcases List.mem_append.mp hmem with h | h
    · exact hps h
    · rcases List.mem_cons.mp h with h | h
      · exact absurd h (by decide)
      · exact hs h
  have hsplit2 : splitOnChar ':' (p ++ ':' :: v) = [p, v] := by
    rw [splitOnChar_append v hpc, splitOnChar_not_mem hc]
  have hpp : processProps [p ++ ':' :: v] [] none =
      .ok (expandSpacing p st) (some st) := by
    rw [processProps_cons, hsplit2]
    show (if p = "margin".toList ∨ p = "padding".toList then
        match spacingDispatch (splitWS v) none with
        | none => PropsOut.err .unboundLocal
        | some s => processProps [] ([] ++ expandSpacing p s) (some s)
      else processProps [] ([] ++ (p ++ ':' :: v) ++ [';']) none) =
      .ok (expandSpacing p st) (some st)
    rw [if_pos hp, hd]
    show PropsOut.ok ([] ++ expandSpacing p st) (some st) = _
    rw [List.nil_append]
  unfold split_spacing_propertiesL
  rw [processRules_cons, hsplit1, hpp]
  show (let props' := match (expandSpacing p st).getLast? with
                      | some ';' => (expandSpacing p st).dropLast
                      | _ => expandSpacing p st
        SpacingOut.ok [(sel, props')]) =
    .ok [(sel, longhand p st.top st.right st.bottom st.left)]
  rw [expandSpacing_eq, List.getLast?_concat, List.dropLast_concat]
  rfl

/-!
Section: Claim C2
-/

/-- C2: a rule whose block is a `margin`/`padding` shorthand with 1, 2,
3 or 4 space-separated values expands to the four longhands, the sides
receiving the values exactly as the claim assigns them, and a shorthand
embedded among other declarations is replaced in place (last conjunct).
The expanded declarations are joined by bare `;`, without spaces. -/
theorem C2_spacing_cases (sel p v t r b l : Chars)
    (hp : p = "margin".toList ∨ p = "padding".toList)
    (hc : ':' ∉ v) (hs : ';' ∉ v) :
    (splitWS v = [t] →
      split_spacing_propertiesL [(sel, p ++ ':' :: v)] =
        .ok [(sel, longhand p t t t t)]) ∧
    (splitWS v = [t, r] →
      split_spacing_propertiesL [(sel, p ++ ':' :: v)] =
        .ok [(sel, longhand p t r t r)]) ∧
    (splitWS v = [t, r, b] →
      split_spacing_propertiesL [(sel, p ++ ':' :: v)] =
        .ok [(sel, longhand p t r b r)]) ∧
    (splitWS v = [t, r, b, l] →
      split_spacing_propertiesL [(sel, p ++ ':' :: v)] =
        .ok [(sel, longhand p t r b l)]) ∧
    split_spacing_propertiesL [("p".toList, "color:red;margin:1px 2px".toList)] =
      .ok [("p".toList,
        "color:red;margin-top:1px;margin-right:2px;margin-bottom:1px;margin-left:2px".toList)] := by
  refine ⟨?_, ?_, ?_, ?_, by decide⟩
  · intro hws
    exact spacing_single_rule sel p v ⟨t, t, t, t⟩ hp hc hs (by rw [hws]; rfl)
  · intro hws
    exact spacing_single_rule sel p v ⟨t, r, t, r⟩ hp hc hs (by rw [hws]; rfl)
  · intro hws
    exact spacing_single_rule sel p v ⟨t, r, b, r⟩ hp hc hs (by rw [hws]; rfl)
  · intro hws
    exact spacing_single_rule sel p v ⟨t, r, b, l⟩ hp hc hs (by rw [hws]; rfl)

/-- Witness for C2 at `margin:1px 2px`. -/
theorem C2_witness :
    split_spacing_propertiesL [("p".toList, "margin".toList ++ ':' :: "1px 2px".toList)] =
      .ok [("p".toList,
        longhand "margin".toList "1px".toList "2px".toList "1px".toList "2px".toList)] :=
  (C2_spacing_cases "p".toList "margin".toList "1px 2px".toList
    "1px".toList "2px".toList [] []
    (Or.inl rfl) (by decide) (by decide)).2.1 (by decide)

/-!
Section: Claim C7
-/

/-- Declarations that are not `margin`/`padding` shorthands pass through
unchanged, each re-appended with its `;`. -/
theorem processProps_passthrough (segs : List Chars)
    (h : ∀ seg ∈ segs, ∃ pp vv, splitOnChar ':' seg = [pp, vv] ∧
      pp ≠ "margin".toList ∧ pp ≠ "padding".toList) :
    ∀ (acc : Chars) (st : Option SpacingState),
      processProps segs acc st =
        .ok (acc ++ (segs.map (fun s => s ++ [';'])).flatten) st := by
  induction segs with
  | nil => intro acc st; simp [processProps]
  | cons seg rest ih =>
    intro acc st
    obtain ⟨pp, vv, hsplit, hm, hpd⟩ := h seg (List.mem_cons_self _ _)
    have hrest := fun s hs => h s (List.mem_cons_of_mem _ hs)
    rw [processProps_cons, hsplit]
    show (if pp = "margin".toList ∨ pp = "padding".toList then
        match spacingDispatch (splitWS vv) st with
        | none => PropsOut.err .unboundLocal
        | some s => processProps rest (acc ++ expandSpacing pp s) (some s)
      else processProps rest (acc ++ seg ++ [';']) st) = _
    rw [if_neg (fun hor => hor.elim hm hpd), ih hrest]
    simp [List.append_assoc]

theorem join_semis_getLast (segs : List Chars) (hne : segs ≠ []) :
    ((segs.map (fun s => s ++ [';'])).flatten).getLast? = some ';' := by
  induction segs with
  | nil => exact absurd rfl hne
  | cons s rest ih =>
    cases rest with
    | nil => simp
    | cons s2 r2 =>
      have hne2 : ((s2 :: r2).map (fun s => s ++ [';'])).flatten ≠ [] := by simp
      rw [List.map_cons, List.flatten_cons, List.getLast?_append_of_ne_nil _ hne2]
      exact ih (by simp)

theorem join_semis_dropLast (segs : List Chars) (hne : segs ≠ []) :
    ((segs.map (fun s => s ++ [';'])).flatten).dropLast = joinSep [';'] segs := by
  induction segs with
  | nil => exact absurd rfl hne
  | cons s rest ih =>
    cases rest with
    | nil => simp [joinSep]
    | cons s2 r2 =>
      have hne2 : ((s2 :: r2).map (fun s => s ++ [';'])).flatten ≠ [] := by simp
      rw [List.map_cons, List.flatten_cons, List.dropLast_append_of_ne_nil _ hne2,
        ih (by simp)]
      show s ++ [';'] ++ joinSep [';'] (s2 :: r2) = joinSep [';'] (s :: s2 :: r2)
      simp [joinSep]

/-- C7: shorthand expansion is the identity on every rule list in which
each declaration has exactly one `:` and no declaration is a `margin` or
`padding` shorthand. -/
theorem C7_expansion_idempotent (rules : List (Chars × Chars))
    (h : ∀ r ∈ rules, ∀ seg ∈ splitOnChar ';' r.2, ∃ pp vv,
      splitOnChar ':' seg = [pp, vv] ∧ pp ≠ "margin".toList ∧
      pp ≠ "padding".toList) :
    split_spacing_propertiesL rules = .ok rules := by
  unfold split_spacing_propertiesL
  induction rules with
  | nil => rfl
  | cons r rest ih =>
    obtain ⟨sel, style⟩ := r
    have hhead := h (sel, style) (List.mem_cons_self _ _)
    have htail := fun r hr => h r (List.mem_cons_of_mem _ hr)
    have hne := splitOnChar_ne_nil ';' style
    rw [processRules_cons,
      processProps_passthrough (splitOnChar ';' style) hhead [] none]
    show (let props' := match (([] : Chars) ++
            ((splitOnChar ';' style).map (fun s => s ++ [';'])).flatten).getLast? with
          | some ';' => (([] : Chars) ++
              ((splitOnChar ';' style).map (fun s => s ++ [';'])).flatten).dropLast
          | _ => ([] : Chars) ++
              ((splitOnChar ';' style).map (fun s => s ++ [';'])).flatten
          match processRules rest none with
          | SpacingOut.err e => SpacingOut.err e
          | SpacingOut.ok orules => SpacingOut.ok ((sel, props') :: orules)) = _
    rw [List.nil_append, join_semis_getLast _ hne, join_semis_dropLast _ hne,
      joinSep_splitOnChar, ih htail]
    rfl

/-- Witness for C7 on a shorthand-free rule. -/
theorem C7_witness :
    split_spacing_propertiesL
      [("p".toList, "color:red; font-size:2px".toList)] =
    .ok [("p".toList, "color:red; font-size:2px".toList)] :=
  C7_expansion_idempotent [("p".toList, "color:red; font-size:2px".toList)]
    (by
      intro r hr seg hseg
      have h2 : r.2 = "color:red; font-size:2px".toList := by
        rw [List.mem_singleton.mp hr]
      rw [h2] at hseg
      have hsegs : splitOnChar ';' "color:red; font-size:2px".toList =
          ["color:red".toList, " font-size:2px".toList] := by decide
      rw [hsegs] at hseg
      simp only [List.mem_cons, List.not_mem_nil, or_false] at hseg
      rcases hseg with rfl | rfl
      · exact ⟨"color".toList, "red".toList, by decide, by decide, by decide⟩
      · exact ⟨" font-size".toList, "2px".toList, by decide, by decide, by decide⟩)

/-!
Section: Claim C8
-/

theorem spacingDispatch_isSome (values : List Chars) (st : Option SpacingState)
    (h1 : 1 ≤ values.length) (h4 : values.length ≤ 4) :
    ∃ s, spacingDispatch values st = some s := by
  unfold spacingDispatch
  split_ifs with e1 e2 e3 e4
  · exact ⟨_, rfl⟩
  · exact ⟨_, rfl⟩
  · exact ⟨_, rfl⟩
  · exact ⟨_, rfl⟩
  · omega

/-- A value-count hypothesis for every `margin`/`padding` declaration of
a segment list. -/
def ValidSpacing (segs : List Chars) : Prop :=
  ∀ seg ∈ segs, ∀ pp vv, splitOnChar ':' seg = [pp, vv] →
    (pp = "margin".toList ∨ pp = "padding".toList) →
    1 ≤ (splitWS vv).length ∧ (splitWS vv).length ≤ 4

theorem processProps_err (segs : List Chars) (hv : ValidSpacing segs)
    (hbad : ∃ seg ∈ segs, (splitOnChar ':' seg).length ≠ 2) :
    ∀ (acc : Chars) (st : Option SpacingState),
      processProps segs acc st = .err .declFormat := by
  induction segs with
  | nil =>
    obtain ⟨seg, hmem, _⟩ := hbad
    exact absurd hmem (List.not_mem_nil seg)
  | cons seg rest ih =>
    intro acc st
    rw [processProps_cons]
    rcases hshape : splitOnChar ':' seg with _ | ⟨pp, _ | ⟨vv, _ | ⟨x, t⟩⟩⟩
    · rfl
    · rfl
    · have hbad' : ∃ s ∈ rest, (splitOnChar ':' s).length ≠ 2 := by
        rcases hbad with ⟨s, hs, hlen⟩
        rcases List.mem_cons.mp hs with rfl | hs
        · rw [hshape] at hlen
          simp at hlen
        · exact ⟨s, hs, hlen⟩
      have hvrest : ValidSpacing rest :=
        fun s hs => hv s (List.mem_cons_of_mem _ hs)
      show (if pp = "margin".toList ∨ pp = "padding".toList then
          match spacingDispatch (splitWS vv) st with
          | none => PropsOut.err .unboundLocal
          | some s => processProps rest (acc ++ expandSpacing pp s) (some s)
        else processProps rest (acc ++ seg ++ [';']) st) = .err .declFormat
      by_cases hsp : pp = "margin".toList ∨ pp = "padding".toList
      · obtain ⟨bounds1, bounds4⟩ :=
          hv seg (List.mem_cons_self _ _) pp vv hshape hsp
        obtain ⟨s', hs'⟩ := spacingDispatch_isSome (splitWS vv) st bounds1 bounds4
        rw [if_pos hsp, hs']
        exact ih hvrest hbad' _ _
      · rw [if_neg hsp]
        exact ih hvrest hbad' _ _
    · rfl

theorem processProps_ok (segs : List Chars) (hv : ValidSpacing segs)
    (hgood : ∀ seg ∈ segs, (splitOnChar ':' seg).length = 2) :
    ∀ (acc : Chars) (st : Option SpacingState),
      ∃ props st', processProps segs acc st = .ok props st' := by
  induction segs with
  | nil => intro acc st; exact ⟨acc, st, rfl⟩
  | cons seg rest ih =>
    intro acc st
    have hvrest : ValidSpacing rest := fun s hs => hv s (List.mem_cons_of_mem _ hs)
    have hgrest := fun s hs => hgood s (List.mem_cons_of_mem _ hs)
    have hlen := hgood seg (List.mem_cons_self _ _)
    rw [processProps_cons]
    rcases hshape : splitOnChar ':' seg with _ | ⟨pp, _ | ⟨vv, _ | ⟨x, t⟩⟩⟩
    · rw [hshape] at hlen; simp at hlen
    · rw [hshape] at hlen; simp at hlen
    · show ∃ props st', (if pp = "margin".toList ∨ pp = "padding".toList then
          match spacingDispatch (splitWS vv) st with
          | none => PropsOut.err .unboundLocal
          | some s => processProps rest (acc ++ expandSpacing pp s) (some s)
        else processProps rest (acc ++ seg ++ [';']) st) = .ok props st'
      by_cases hsp : pp = "margin".toList ∨ pp = "padding".toList
      · obtain ⟨bounds1, bounds4⟩ :=
          hv seg (List.mem_cons_self _ _) pp vv hshape hsp
        obtain ⟨s', hs'⟩ := spacingDispatch_isSome (splitWS vv) st bounds1 bounds4
        rw [if_pos hsp, hs']
        exact ih hvrest hgrest _ _
      · rw [if_neg hsp]
        exact ih hvrest hgrest _ _
    · rw [hshape] at hlen; simp at hlen

/-- The value-count hypothesis for every rule of a rule list. -/
def ValidSpacingRules (rules : List (Chars × Chars)) : Prop :=
  ∀ r ∈ rules, ValidSpacing (splitOnChar ';' r.2)

theorem processRules_err (rules : List (Chars × Chars))
    (hv : ValidSpacingRules rules)
    (hbad : ∃ r ∈ rules, ∃ seg ∈ splitOnChar ';' r.2,
      (splitOnChar ':' seg).length ≠ 2) :
    ∀ st, processRules rules st = .err .declFormat := by
  induction rules with
  | nil =>
    obtain ⟨r, hmem, _⟩ := hbad
    exact absurd hmem (List.not_mem_nil r)
  | cons r rest ih =>
    intro st
    obtain ⟨sel, style⟩ := r
    have hvhead := hv (sel, style) (List.mem_cons_self _ _)
    have hvtail : ValidSpacingRules rest :=
      fun r' hr => hv r' (List.mem_cons_of_mem _ hr)
    rw [processRules_cons]
    by_cases hr : ∃ seg ∈ splitOnChar ';' style, (splitOnChar ':' seg).length ≠ 2
    · rw [processProps_err _ hvhead hr [] st]
    · push_neg at hr
      obtain ⟨props, st', hok⟩ := processProps_ok _ hvhead hr [] st
      rw [hok]
      have hbad' : ∃ r' ∈ rest, ∃ seg ∈ splitOnChar ';' r'.2,
          (splitOnChar ':' seg).length ≠ 2 := by
        rcases hbad with ⟨r', hr', seg, hseg, hlen⟩
        rcases List.mem_cons.mp hr' with rfl | hr'
        · exact absurd (hr seg hseg) hlen
        · exact ⟨r', hr', seg, hseg, hlen⟩
      show (let props' := match props.getLast? with
            | some ';' => props.dropLast
            | _ => props
            match processRules rest st' with
            | SpacingOut.err e => SpacingOut.err e
            | SpacingOut.ok orules => SpacingOut.ok ((sel, props') :: orules)) =
        SpacingOut.err .declFormat
      rw [ih hvtail hbad' st']

theorem processRules_ok (rules : List (Chars × Chars))
    (hv : ValidSpacingRules rules)
    (hgood : ∀ r ∈ rules, ∀ seg ∈ splitOnChar ';' r.2,
      (splitOnChar ':' seg).length = 2) :
    ∀ st, ∃ out, processRules rules st = .ok out := by
  induction rules with
  | nil => intro st; exact ⟨[], rfl⟩
  | cons r rest ih =>
    intro st
    obtain ⟨sel, style⟩ := r
    have hvhead := hv (sel, style) (List.mem_cons_self _ _)
    have hvtail : ValidSpacingRules rest :=
      fun r' hr => hv r' (List.mem_cons_of_mem _ hr)
    have hghead := hgood (sel, style) (List.mem_cons_self _ _)
    have hgtail := fun r' hr => hgood r' (List.mem_cons_of_mem _ hr)
    obtain ⟨props, st', hok⟩ := processProps_ok _ hvhead hghead [] st
    obtain ⟨out', hok'⟩ := ih hvtail hgtail st'
    rw [processRules_cons, hok]
    show ∃ out, (let props' := match props.getLast? with
          | some ';' => props.dropLast
          | _ => props
          match processRules rest st' with
          | SpacingOut.err e => SpacingOut.err e
          | SpacingOut.ok orules => SpacingOut.ok ((sel, props') :: orules)) =
      SpacingOut.ok out
    rw [hok']
    exact ⟨_, rfl⟩

/-- C8 counterexample: every declaration of
`margin:1px 2px 3px 4px 5px` has exactly one `:`, yet expansion fails
(with the `UnboundLocalError` of the never-assigned side variables, not
a declaration-format error), refuting the claim's success direction. -/
theorem C8_counterexample :
    (∀ seg ∈ splitOnChar ';' "margin:1px 2px 3px 4px 5px".toList,
      (splitOnChar ':' seg).length = 2) ∧
    split_spacing_propertiesL
      [("p".toList, "margin:1px 2px 3px 4px 5px".toList)] =
      .err .unboundLocal :=
  ⟨by decide, by decide⟩

/-- C8 as amended: provided every `margin`/`padding` declaration carries
1-4 space-separated values, shorthand expansion fails with the
declaration-format error exactly when some declaration does not have
exactly one `:` separator, and succeeds otherwise. -/
theorem C8_amended (rules : List (Chars × Chars)) (hv : ValidSpacingRules rules) :
    (split_spacing_propertiesL rules = .err .declFormat ↔
      ∃ r ∈ rules, ∃ seg ∈ splitOnChar ';' r.2,
        (splitOnChar ':' seg).length ≠ 2) ∧
    ((∀ r ∈ rules, ∀ seg ∈ splitOnChar ';' r.2,
        (splitOnChar ':' seg).length = 2) →
      ∃ out, split_spacing_propertiesL rules = .ok out) := by
  constructor
  · constructor
    · intro herr
      by_contra hno
      push_neg at hno
      obtain ⟨out, hok⟩ := processRules_ok rules hv hno none
      unfold split_spacing_propertiesL at herr
      rw [hok] at herr
      exact absurd herr (by simp)
    · intro hex
      exact processRules_err rules hv hex none
  · intro hgood
    exact processRules_ok rules hv hgood none

/-!
Section: Claim C4
-/

/-- C4: evaluation at the failing input.  The list entry `'nth-child'`
of `FILTER_PSEUDOSELECTORS` lacks a leading colon, and both membership
tests compare strings that always start with `:` (extraction compares
`':' + suffix`, orchestration compares `class_`), so an `nth-child`
selector is never recognized as a filter pseudo-selector: with
pseudo-class exclusion enabled, `p:nth-child(2) {color:red}` goes to
the leftover sequence, and in the main loop its pseudo part is split
off and used as the pseudo-class merge key.  The `:first-child` and
`:last-child` entries do work as the claim states. -/
theorem C4_filter_pseudo_eval :
    classify_selector true false "p:nth-child(2)".toList = .leftover ∧
    split_pseudo "p:nth-child(2)" = ("p", ":nth-child(2)") ∧
    parse_style_rulesL true false "p:nth-child(2) \x7bcolor:red\x7d".toList =
      ([], [("p:nth-child(2)".toList, "color:red".toList)]) ∧
    classify_selector true false "p:nth-child".toList = .leftover ∧
    split_pseudo "p:nth-child" = ("p", ":nth-child") ∧
    classify_selector true false "p:first-child".toList = .flattened ∧
    split_pseudo "p:first-child" = ("p:first-child", "") ∧
    classify_selector true false "p:last-child".toList = .flattened ∧
    split_pseudo "p:last-child" = ("p:last-child", "") :=
  ⟨by decide, by decide, by decide, by decide, by decide, by decide, by decide,
    by decide, by decide⟩

/-- Witness for C8's amended theorem: a declaration with no colon. -/
theorem C8_witness :
    split_spacing_propertiesL [(("p".toList : Chars), "color".toList)] =
      .err .declFormat := by
  have h := C8_amended [(("p".toList : Chars), "color".toList)]
    (by
      intro r hr seg hseg pp vv heq hsp
      have hr2 : r.2 = "color".toList := by rw [List.mem_singleton.mp hr]
      rw [hr2] at hseg
      have hspl : splitOnChar ';' "color".toList = ["color".toList] := by decide
      rw [hspl] at hseg
      rw [List.mem_singleton.mp hseg] at heq
      have hspl2 : splitOnChar ':' "color".toList = ["color".toList] := by decide
      rw [hspl2] at heq
      simp at heq)
  exact h.1.mpr (by decide)

/-!
Section: Claim C9
-/

theorem attrPairs_nil (attrs : Dict) : attrPairs [] attrs = attrs := rfl

theorem attrPairs_cons (seg : Chars) (rest : List Chars) (attrs : Dict) :
    attrPairs (seg :: rest) attrs =
      match splitOnChar ':' seg with
      | [k, v] =>
        if pyStrip k = "text-align".toList then
          attrPairs rest (dictInsert attrs "align".toList (pyStrip v))
        else if pyStrip k = "background-color".toList then
          attrPairs rest (dictInsert attrs "bgcolor".toList (pyStrip v))
        else if pyStrip k = "width".toList ∨ pyStrip k = "height".toList then
          attrPairs rest (dictInsert attrs (pyStrip k) (pxStripped (pyStrip v)))
        else attrPairs rest attrs
      | _ => attrPairs rest attrs := rfl

/-- Only the four legacy attribute names ever enter the dict. -/
theorem attrPairs_keys (segs : List Chars) :
    ∀ attrs : Dict,
      (∀ a ∈ attrs, a.1 = "align".toList ∨ a.1 = "bgcolor".toList ∨
        a.1 = "width".toList ∨ a.1 = "height".toList) →
      ∀ a ∈ attrPairs segs attrs,
        a.1 = "align".toList ∨ a.1 = "bgcolor".toList ∨
        a.1 = "width".toList ∨ a.1 = "height".toList := by
  induction segs with
  | nil => intro attrs h a ha; exact h a ha
  | cons seg rest ih =>
    intro attrs h a ha
    rw [attrPairs_cons] at ha
    rcases hshape : splitOnChar ':' seg with _ | ⟨k, _ | ⟨v, _ | ⟨x, t⟩⟩⟩ <;>
      rw [hshape] at ha
    · exact ih attrs h a ha
    · exact ih attrs h a ha
    · have ha2 : a ∈ (if pyStrip k = "text-align".toList then
          attrPairs rest (dictInsert attrs "align".toList (pyStrip v))
        else if pyStrip k = "background-color".toList then
          attrPairs rest (dictInsert attrs "bgcolor".toList (pyStrip v))
        else if pyStrip k = "width".toList ∨ pyStrip k = "height".toList then
          attrPairs rest (dictInsert attrs (pyStrip k) (pxStripped (pyStrip v)))
        else attrPairs rest attrs) := ha
      by_cases h1 : pyStrip k = "text-align".toList
      · rw [if_pos h1] at ha2
        refine ih _ ?_ a ha2
        intro b hb
        rcases mem_dictInsert hb with rfl | hb
        · exact Or.inl rfl
        · exact h b hb
      · rw [if_neg h1] at ha2
        by_cases h2 : pyStrip k = "background-color".toList
        · rw [if_pos h2] at ha2
          refine ih _ ?_ a ha2
          intro b hb
          rcases mem_dictInsert hb with rfl | hb
          · exact Or.inr (Or.inl rfl)
          · exact h b hb
        · rw [if_neg h2] at ha2
          by_cases h3 : pyStrip k = "width".toList ∨ pyStrip k = "height".toList
          · rw [if_pos h3] at ha2
            refine ih _ ?_ a ha2
            intro b hb
            rcases mem_dictInsert hb with rfl | hb
            · rcases h3 with h3 | h3
              · exact Or.inr (Or.inr (Or.inl h3))
              · exact Or.inr (Or.inr (Or.inr h3))
            · exact h b hb
          · rw [if_neg h3] at ha2
            exact ih attrs h a ha2
    · exact ih attrs h a ha

/-- C9: the attribute projection maps exactly the fixed property set —
`text-align` to `align`, `background-color` to `bgcolor`, and
`width`/`height` to themselves with a trailing `px` stripped — ignores
every other property without error, considers only the text before the
first `}` (with its leading `{` dropped) when the style is grouped,
and yields `bgcolor="#fff"`, `width="100"` on the claim's example. -/
theorem C9_attribute_projection (k v flat rest : Chars)
    (hk : ':' ∉ k) (hv : ':' ∉ v) (hks : ';' ∉ k) (hvs : ';' ∉ v)
    (hkb : '}' ∉ k) (hvb : '}' ∉ v) (hflat : '}' ∉ flat) :
    (dlookup "bgcolor".toList
        (style_to_attributes "background-color:#fff; width:100px") =
      some "#fff".toList ∧
     dlookup "width".toList
        (style_to_attributes "background-color:#fff; width:100px") =
      some "100".toList) ∧
    style_to_attributesL ('{' :: flat ++ '}' :: rest) =
      attrPairs (splitOnChar ';' flat) [] ∧
    (∀ s a, a ∈ style_to_attributesL s →
      a.1 = "align".toList ∨ a.1 = "bgcolor".toList ∨
      a.1 = "width".toList ∨ a.1 = "height".toList) ∧
    (pyStrip k = "text-align".toList →
      style_to_attributesL (k ++ ':' :: v) = [("align".toList, pyStrip v)]) ∧
    (pyStrip k = "background-color".toList →
      style_to_attributesL (k ++ ':' :: v) = [("bgcolor".toList, pyStrip v)]) ∧
    ((pyStrip k = "width".toList ∨ pyStrip k = "height".toList) →
      style_to_attributesL (k ++ ':' :: v) =
        [(pyStrip k, pxStripped (pyStrip v))]) ∧
    (pyStrip k ≠ "text-align".toList → pyStrip k ≠ "background-color".toList →
      pyStrip k ≠ "width".toList → pyStrip k ≠ "height".toList →
      style_to_attributesL (k ++ ':' :: v) = []) := by
  have hnb : '}' ∉ '{' :: flat := by
    intro hmem
    rcases List.mem_cons.mp hmem with h | h
    · exact absurd h (by decide)
    · exact hflat h
  have hgroup : style_to_attributesL ('{' :: flat ++ '}' :: rest) =
      attrPairs (splitOnChar ';' flat) [] := by
    unfold style_to_attributesL
    have hcount : ('{' :: flat ++ '}' :: rest).count '}' ≠ 0 := by
      intro h0
      exact (List.count_eq_zero.mp h0) (by simp)
    rw [if_pos hcount]
    show attrPairs (splitOnChar ';'
      (((splitOnChar '}' ('{' :: flat ++ '}' :: rest)).headI).drop 1)) [] =
      attrPairs (splitOnChar ';' flat) []
    rw [splitOnChar_append rest hnb]
    rfl
  have hns : ';' ∉ k ++ ':' :: v := by
    intro hmem
    rcases List.mem_append.mp hmem with h | h
    · exact hks h
    · rcases List.mem_cons.mp h with h | h
      · exact absurd h (by decide)
      · exact hvs h
  have hbase : style_to_attributesL (k ++ ':' :: v) =
      attrPairs [k ++ ':' :: v] [] := by
    unfold style_to_attributesL
    have hcnt : (k ++ ':' :: v).count '}' = 0 := by
      rw [List.count_eq_zero]
      intro hmem
      rcases List.mem_append.mp hmem with h | h
      · exact hkb h
      · rcases List.mem_cons.mp h with h | h
        · exact absurd h (by decide)
        · exact hvb h
    rw [if_neg (by rw [hcnt]; simp)]
    show attrPairs (splitOnChar ';' (k ++ ':' :: v)) [] =
      attrPairs [k ++ ':' :: v] []
    rw [splitOnChar_not_mem hns]
  have hsplit2 : splitOnChar ':' (k ++ ':' :: v) = [k, v] := by
    rw [splitOnChar_append v hk, splitOnChar_not_mem hv]
  refine ⟨⟨by decide, by decide⟩, hgroup, ?_, ?_, ?_, ?_, ?_⟩
  · intro s a ha
    unfold style_to_attributesL at ha
    exact attrPairs_keys _ [] (by simp) a ha
  · intro h1
    rw [hbase, attrPairs_cons, hsplit2]
    show (if pyStrip k = "text-align".toList then
        attrPairs [] (dictInsert [] "align".toList (pyStrip v))
      else if pyStrip k = "background-color".toList then
        attrPairs [] (dictInsert [] "bgcolor".toList (pyStrip v))
      else if pyStrip k = "width".toList ∨ pyStrip k = "height".toList then
        attrPairs [] (dictInsert [] (pyStrip k) (pxStripped (pyStrip v)))
      else attrPairs [] []) = [("align".toList, pyStrip v)]
    rw [if_pos h1]
    rfl
  · intro h2
    have h1 : pyStrip k ≠ "text-align".toList := by rw [h2]; decide
    rw [hbase, attrPairs_cons, hsplit2]
    show (if pyStrip k = "text-align".toList then
        attrPairs [] (dictInsert [] "align".toList (pyStrip v))
      else if pyStrip k = "background-color".toList then
        attrPairs [] (dictInsert [] "bgcolor".toList (pyStrip v))
      else if pyStrip k = "width".toList ∨ pyStrip k = "height".toList then
        attrPairs [] (dictInsert [] (pyStrip k) (pxStripped (pyStrip v)))
      else attrPairs [] []) = [("bgcolor".toList, pyStrip v)]
    rw [if_neg h1, if_pos h2]
    rfl
  · intro h3
    have h1 : pyStrip k ≠ "text-align".toList := by
      rcases h3 with h3 | h3 <;> rw [h3] <;> decide
    have h2 : pyStrip k ≠ "background-color".toList := by
      rcases h3 with h3 | h3 <;> rw [h3] <;> decide
    rw [hbase, attrPairs_cons, hsplit2]
    show (if pyStrip k = "text-align".toList then
        attrPairs [] (dictInsert [] "align".toList (pyStrip v))
      else if pyStrip k = "background-color".toList then
        attrPairs [] (dictInsert [] "bgcolor".toList (pyStrip v))
      else if pyStrip k = "width".toList ∨ pyStrip k = "height".toList then
        attrPairs [] (dictInsert [] (pyStrip k) (pxStripped (pyStrip v)))
      else attrPairs [] []) = [(pyStrip k, pxStripped (pyStrip v))]
    rw [if_neg h1, if_neg h2, if_pos h3]
    rfl
  · intro h1 h2 h3 h4
    rw [hbase, attrPairs_cons, hsplit2]
    show (if pyStrip k = "text-align".toList then
        attrPairs [] (dictInsert [] "align".toList (pyStrip v))
      else if pyStrip k = "background-color".toList then
        attrPairs [] (dictInsert [] "bgcolor".toList (pyStrip v))
      else if pyStrip k = "width".toList ∨ pyStrip k = "height".toList then
        attrPairs [] (dictInsert [] (pyStrip k) (pxStripped (pyStrip v)))
      else attrPairs [] []) = []
    rw [if_neg h1, if_neg h2, if_neg (fun hor => hor.elim h3 h4)]
    rfl

/-- Witness for C9 on `text-align: left` and a grouped style. -/
theorem C9_witness :
    style_to_attributesL ("text-align".toList ++ ':' :: " left".toList) =
      [("align".toList, pyStrip " left".toList)] ∧
    style_to_attributesL ('{' :: "color:red".toList ++ '}' :: " :hover\x7ba:b\x7d".toList) =
      attrPairs (splitOnChar ';' "color:red".toList) [] := by
  have h := C9_attribute_projection "text-align".toList " left".toList
    "color:red".toList " :hover\x7ba:b\x7d".toList
    (by decide) (by decide) (by decide) (by decide) (by decide) (by decide)
    (by decide)
  exact ⟨h.2.2.2.1 (by decide), h.2.1⟩

end Premailer
